import Mathlib

/-!
# Verification of the tick8 storage and maintenance core

Shallow embedding of the backend core of `src/src/app/backend/server.js`
(first backend variant, lines 1-1096): the decay algorithm (`DecayService.applyDecay`),
the per-user file service (`UserFileService`), the snapshot subsystem and the
maintenance gating endpoint, together with proofs of the specified properties.

Conventions:
* JS arrays become `List`, JS objects become structures, fallible JS code
  (functions that `throw`) becomes `Except AppErr`.
* The page loop of `applyDecay` (`for (pageStart = 0; pageStart < len; pageStart += pageSize)`)
  is embedded with an explicit fuel argument counting permitted loop iterations;
  exhausting the fuel (`Option.none`) models non-termination of the JS loop.
* The helper `fileExists` referenced by `UserFileService` is an existence check
  (it is implemented as `fsSync.existsSync` in the second backend variant in the
  same file, line 1431); store lookups model it.
-/

set_option autoImplicit false

/-- Review state of one slot of a vocabulary item: `'none' | 'tick' | 'cross' | 'boost'`. -/
inductive DState where
  | none
  | tick
  | cross
  | boost
deriving DecidableEq, Repr

/-- A vocabulary item (`{id, word, answer, states, lastUpdated}`); `states` is the
JS array of review states (always an array after the clone at server.js:652). -/
structure VItem where
  id : String
  word : String
  answer : String
  lastUpdated : String
  states : List DState
deriving DecidableEq, Repr

/-- `item.states.filter(s => s !== 'none').length` (server.js:662, 672). -/
def filledCount (l : List DState) : Nat :=
  (l.filter (fun s => s != DState.none)).length

/-- The clearing loop of `applyDecay` (server.js:677-684) applied to the REVERSED
states list: scan forward, clearing non-`none` entries to `none` while the removal
budget lasts; the returned flag records whether any assignment happened
(`modified = true` on each assignment). -/
def clearFwd : Nat → List DState → List DState × Bool
  | _, [] => ([], false)
  | 0, l => (l, false)
  | n+1, s :: rest =>
    if s != DState.none then
      (DState.none :: (clearFwd n rest).1, true)
    else
      (s :: (clearFwd (n+1) rest).1, (clearFwd (n+1) rest).2)

/-- The clearing loop as written (server.js:678: `for (pos = len-1; pos >= 0 && removed < toRemove; pos--)`):
clear `n` filled slots starting from the highest index, working backward. -/
def clearBack (n : Nat) (l : List DState) : List DState × Bool :=
  ((clearFwd n l.reverse).1.reverse, (clearFwd n l.reverse).2)

/-- The boosting loop of `applyDecay` (server.js:688-695): scan forward from index 0,
setting `none` slots to `boost` while the budget lasts; flag = any assignment. -/
def boostFwd : Nat → List DState → List DState × Bool
  | _, [] => ([], false)
  | 0, l => (l, false)
  | n+1, s :: rest =>
    if s == DState.none then
      (DState.boost :: (boostFwd n rest).1, true)
    else
      (s :: (boostFwd (n+1) rest).1, (boostFwd (n+1) rest).2)

/-- Body of the per-item loop of `applyDecay` (server.js:668-697), given the page's
`avgFilled`: skip items with empty states; clear down to the average from the end,
or boost up to the average from the front. -/
def decayItem (avg : Nat) (it : VItem) : VItem × Bool :=
  if it.states.length = 0 then (it, false)
  else
    if avg < filledCount it.states then
      ({ it with states := (clearBack (filledCount it.states - avg) it.states).1 },
       (clearBack (filledCount it.states - avg) it.states).2)
    else if filledCount it.states < avg then
      ({ it with states := (boostFwd (avg - filledCount it.states) it.states).1 },
       (boostFwd (avg - filledCount it.states) it.states).2)
    else (it, false)

/-- `avgFilled` of a page (server.js:661-665): `Math.floor(totalFilled / pageItems.length)`. -/
def pageAvg (page : List VItem) : Nat :=
  (page.map (fun it => filledCount it.states)).sum / page.length

/-- Processing of one page of `applyDecay` (server.js:660-697): compute the floor
average of filled counts, apply `decayItem` to each item; second component is
whether any state on the page changed. -/
def decayPage (page : List VItem) : List VItem × Bool :=
  ((page.map (decayItem (pageAvg page))).map Prod.fst,
   (page.map (decayItem (pageAvg page))).any Prod.snd)

/-- The page loop of `applyDecay` (server.js:656-658):
`pageItems = result.slice(pageStart, min(pageStart + pageSize, len))`, advancing
`pageStart += pageSize`. `fuel` bounds the number of loop iterations; `Option.none`
models a loop that does not finish within the fuel (for `pageSize = 0` the loop
never advances, so no fuel suffices). -/
def chunksF : Nat → Nat → List VItem → Option (List (List VItem))
  | _, _, [] => some []
  | 0, _, _ :: _ => Option.none
  | fuel+1, p, x :: xs =>
    (chunksF fuel p ((x :: xs).drop p)).map (fun cs => (x :: xs).take p :: cs)

/-- `DecayService.applyDecay(vocab, pageSize)` (server.js:650-701). The clone at
line 652 is the identity on this functional model. A fuel of `vocab.length`
iterations is enough whenever the JS loop terminates, since every iteration that
makes progress consumes at least one item. -/
def applyDecay (vocab : List VItem) (pageSize : Nat) : Option (List VItem × Bool) :=
  (chunksF vocab.length pageSize vocab).map (fun pages =>
    (((pages.map decayPage).map Prod.fst).flatten,
     ((pages.map decayPage).map Prod.snd).any (fun b => b)))

/-- Reference chunking used in proofs: consecutive pages of length `p`
(final page may be shorter); returns `[]` when `p = 0`. -/
def chunks (p : Nat) (l : List VItem) : List (List VItem) :=
  if h : p = 0 ∨ l = [] then []
  else l.take p :: chunks p (l.drop p)
termination_by l.length
decreasing_by
  simp only [List.length_drop]
  have h1 : p ≠ 0 := fun hp => h (Or.inl hp)
  have h2 : l ≠ [] := fun hl => h (Or.inr hl)
  have h3 : 0 < l.length := List.length_pos.mpr h2
  omega

/-- Number of `none` slots; the boosting loop skips the complement. -/
def noneCount (l : List DState) : Nat :=
  (l.filter (fun s => s == DState.none)).length

theorem filledCount_nil : filledCount [] = 0 := rfl

theorem filledCount_cons (s : DState) (rest : List DState) :
    filledCount (s :: rest) = (if s != DState.none then 1 else 0) + filledCount rest := by
  by_cases h : (s != DState.none) = true <;>
    simp [filledCount, List.filter_cons, h, Nat.add_comm]

theorem noneCount_cons (s : DState) (rest : List DState) :
    noneCount (s :: rest) = (if s == DState.none then 1 else 0) + noneCount rest := by
  by_cases h : (s == DState.none) = true <;>
    simp [noneCount, List.filter_cons, h, Nat.add_comm]

theorem filledCount_le_length (l : List DState) : filledCount l ≤ l.length :=
  List.length_filter_le _ l

theorem filledCount_append (a b : List DState) :
    filledCount (a ++ b) = filledCount a + filledCount b := by
  simp [filledCount, List.filter_append]

theorem filledCount_reverse (l : List DState) : filledCount l.reverse = filledCount l := by
  simp [filledCount]

theorem filledCount_add_noneCount (l : List DState) :
    filledCount l + noneCount l = l.length := by
  induction l with
  | nil => rfl
  | cons s rest ih =>
    rw [filledCount_cons, noneCount_cons]
    cases s <;> simp <;> omega

theorem clearFwd_length (n : Nat) (l : List DState) :
    (clearFwd n l).1.length = l.length := by
  induction l generalizing n with
  | nil => cases n <;> rfl
  | cons s rest ih =>
    cases n with
    | zero => rfl
    | succ m =>
      simp only [clearFwd]
      split <;> simp [ih]

theorem clearFwd_filled (n : Nat) (l : List DState) :
    filledCount (clearFwd n l).1 = filledCount l - n := by
  induction l generalizing n with
  | nil => cases n <;> simp [clearFwd, filledCount]
  | cons s rest ih =>
    cases n with
    | zero => simp [clearFwd]
    | succ m =>
      simp only [clearFwd]
      by_cases h : (s != DState.none) = true
      · rw [if_pos h]
        simp only [filledCount_cons, ih]
        simp [h]
        omega
      · rw [if_neg h]
        simp only [filledCount_cons, ih]
        simp only [Bool.not_eq_true] at h
        simp [h]

theorem boostFwd_length (n : Nat) (l : List DState) :
    (boostFwd n l).1.length = l.length := by
  induction l generalizing n with
  | nil => cases n <;> rfl
  | cons s rest ih =>
    cases n with
    | zero => rfl
    | succ m =>
      simp only [boostFwd]
      split <;> simp [ih]

theorem boostFwd_filled (n : Nat) (l : List DState) :
    filledCount (boostFwd n l).1 = filledCount l + min n (noneCount l) := by
  induction l generalizing n with
  | nil => cases n <;> simp [boostFwd, filledCount, noneCount]
  | cons s rest ih =>
    cases n with
    | zero => simp [boostFwd]
    | succ m =>
      simp only [boostFwd]
      by_cases h : (s == DState.none) = true
      · rw [if_pos h]
        simp only [filledCount_cons, noneCount_cons, ih]
        have hs : s = DState.none := by
          exact eq_of_beq h
        subst hs
        simp
        omega
      · rw [if_neg h]
        simp only [filledCount_cons, noneCount_cons, ih]
        have hs : s ≠ DState.none := by
          intro hc; subst hc; simp at h
        have hs' : (s != DState.none) = true := by
          simpa using hs
        simp [hs', h]
        omega

theorem clearBack_length (n : Nat) (l : List DState) :
    (clearBack n l).1.length = l.length := by
  simp [clearBack, clearFwd_length]

theorem clearBack_filled (n : Nat) (l : List DState) :
    filledCount (clearBack n l).1 = filledCount l - n := by
  simp [clearBack, filledCount_reverse, clearFwd_filled]

theorem decayItem_states_length (avg : Nat) (it : VItem) :
    (decayItem avg it).1.states.length = it.states.length := by
  unfold decayItem
  split
  · rfl
  · split
    · simp [clearBack_length]
    · split
      · simp [boostFwd_length]
      · rfl

theorem decayItem_fields (avg : Nat) (it : VItem) :
    (decayItem avg it).1.id = it.id ∧ (decayItem avg it).1.word = it.word ∧
    (decayItem avg it).1.answer = it.answer ∧ (decayItem avg it).1.lastUpdated = it.lastUpdated := by
  unfold decayItem
  split
  · exact ⟨rfl, rfl, rfl, rfl⟩
  · split
    · exact ⟨rfl, rfl, rfl, rfl⟩
    · split
      · exact ⟨rfl, rfl, rfl, rfl⟩
      · exact ⟨rfl, rfl, rfl, rfl⟩

theorem decayItem_filled (avg : Nat) (it : VItem) (h : avg ≤ it.states.length) :
    filledCount (decayItem avg it).1.states = avg := by
  unfold decayItem
  split
  · rename_i hlen
    have h1 : filledCount it.states ≤ it.states.length := filledCount_le_length _
    show filledCount it.states = avg
    omega
  · rename_i hlen
    split
    · rename_i hgt
      simp only [clearBack_filled]
      omega
    · split
      · rename_i hlt
        simp only [boostFwd_filled]
        have h2 : filledCount it.states + noneCount it.states = it.states.length :=
          filledCount_add_noneCount _
        omega
      · rename_i h1 h2
        show filledCount it.states = avg
        omega

theorem decayItem_of_filled_eq (avg : Nat) (it : VItem)
    (h : filledCount it.states = avg) : decayItem avg it = (it, false) := by
  unfold decayItem
  split
  · rfl
  · rw [if_neg (by omega), if_neg (by omega)]

theorem pageAvg_le (L : Nat) (page : List VItem)
    (hL : ∀ it ∈ page, it.states.length ≤ L) (hne : page ≠ []) : pageAvg page ≤ L := by
  unfold pageAvg
  have hlen : 0 < page.length := List.length_pos.mpr hne
  have hsum : (page.map (fun it => filledCount it.states)).sum ≤ page.length * L := by
    calc (page.map (fun it => filledCount it.states)).sum
        ≤ (page.map (fun it => filledCount it.states)).length * L := by
          apply List.sum_le_card_nsmul
          intro x hx
          obtain ⟨it, hit, rfl⟩ := List.mem_map.mp hx
          exact le_trans (filledCount_le_length _) (hL it hit)
      _ = page.length * L := by rw [List.length_map]
  calc (page.map (fun it => filledCount it.states)).sum / page.length
      ≤ page.length * L / page.length := Nat.div_le_div_right hsum
    _ = L := Nat.mul_div_cancel_left L hlen

theorem decayPage_length (page : List VItem) : (decayPage page).1.length = page.length := by
  simp [decayPage]

theorem decayPage_mem_filled (L : Nat) (page : List VItem)
    (hL : ∀ it ∈ page, it.states.length = L) :
    ∀ it' ∈ (decayPage page).1, filledCount it'.states = pageAvg page ∧ it'.states.length = L := by
  intro it' hmem
  simp only [decayPage, List.map_map, List.mem_map] at hmem
  obtain ⟨it, hit, rfl⟩ := hmem
  have hne : page ≠ [] := List.ne_nil_of_mem hit
  have havg : pageAvg page ≤ L := pageAvg_le L page (fun i hi => le_of_eq (hL i hi)) hne
  have hlen := hL it hit
  constructor
  · exact decayItem_filled _ it (by omega)
  · show (decayItem (pageAvg page) it).1.states.length = L
    rw [decayItem_states_length]; exact hlen

theorem decayPage_of_const_filled (page : List VItem) (a : Nat)
    (ha : ∀ it ∈ page, filledCount it.states = a) :
    decayPage page = (page, false) := by
  by_cases hne : page = []
  · subst hne; rfl
  · have hlen : 0 < page.length := List.length_pos.mpr hne
    have hsum : (page.map (fun it => filledCount it.states)).sum = page.length * a := by
      have hrep : page.map (fun it => filledCount it.states)
          = List.replicate (page.map (fun it => filledCount it.states)).length a := by
        apply List.eq_replicate_of_mem
        intro x hx
        obtain ⟨it, hit, rfl⟩ := List.mem_map.mp hx
        exact ha it hit
      rw [hrep, List.sum_replicate, List.length_map, smul_eq_mul]
    have havg : pageAvg page = a := by
      unfold pageAvg
      rw [hsum, Nat.mul_div_cancel_left a hlen]
    have hitems : ∀ it ∈ page, decayItem (pageAvg page) it = (it, false) := by
      intro it hit
      rw [havg]
      exact decayItem_of_filled_eq a it (ha it hit)
    unfold decayPage
    rw [Prod.mk.injEq]
    constructor
    · rw [List.map_map]
      have hmap : page.map (Prod.fst ∘ decayItem (pageAvg page)) = page.map id := by
        apply List.map_congr_left
        intro it hit
        show (decayItem (pageAvg page) it).1 = it
        rw [hitems it hit]
      rw [hmap, List.map_id]
    · rw [List.any_eq_false]
      intro pr hpr
      simp only [List.mem_map] at hpr
      obtain ⟨i, hi, rfl⟩ := hpr
      rw [hitems i hi]
      simp

theorem chunks_nil (p : Nat) : chunks p [] = [] := by
  rw [chunks]
  simp

theorem chunks_cons (p : Nat) (l : List VItem) (hp : p ≠ 0) (hl : l ≠ []) :
    chunks p l = l.take p :: chunks p (l.drop p) := by
  rw [chunks]
  simp [hp, hl]

theorem chunksF_eq_chunks (fuel p : Nat) (l : List VItem) (hp : 1 ≤ p)
    (hfuel : l.length ≤ fuel) : chunksF fuel p l = some (chunks p l) := by
  induction fuel generalizing l with
  | zero =>
    have hl : l = [] := by
      cases l with
      | nil => rfl
      | cons x xs => simp at hfuel
    subst hl
    simp [chunksF, chunks_nil]
  | succ f ih =>
    cases l with
    | nil => simp [chunksF, chunks_nil]
    | cons x xs =>
      have hdrop : ((x :: xs).drop p).length ≤ f := by
        simp only [List.length_cons] at hfuel
        simp only [List.length_drop, List.length_cons]
        omega
      simp only [chunksF]
      rw [ih _ hdrop, chunks_cons p (x :: xs) (by omega) (by simp)]
      rfl

theorem chunks_mem_of_mem (p : Nat) (l c : List VItem) (hc : c ∈ chunks p l) :
    c ≠ [] ∧ ∀ it ∈ c, it ∈ l := by
  by_cases hp : p = 0
  · subst hp
    rw [chunks] at hc
    simp at hc
  · induction l using chunks.induct p with
    | case1 l h =>
      rcases h with h | h
      · exact absurd h hp
      · subst h
        rw [chunks_nil] at hc
        simp at hc
    | case2 l h ih =>
      have hl : l ≠ [] := fun he => h (Or.inr he)
      rw [chunks_cons p l hp hl] at hc
      rcases List.mem_cons.mp hc with rfl | htail
      · constructor
        · intro htk
          have : (l.take p).length = 0 := by rw [htk]; rfl
          rw [List.length_take] at this
          have : 0 < l.length := List.length_pos.mpr hl
          omega
        · intro it hit
          exact List.take_subset p l hit
      · obtain ⟨h1, h2⟩ := ih htail
        exact ⟨h1, fun it hit => List.drop_subset p l (h2 it hit)⟩

theorem chunks_flatten (p : Nat) (l : List VItem) (hp : p ≠ 0) :
    (chunks p l).flatten = l := by
  induction l using chunks.induct p with
  | case1 l h =>
    rcases h with h | h
    · exact absurd h hp
    · subst h
      rw [chunks_nil]
      rfl
  | case2 l h ih =>
    have hl : l ≠ [] := fun he => h (Or.inr he)
    rw [chunks_cons p l hp hl, List.flatten_cons, ih, List.take_append_drop]

theorem chunks_flatten_map (p : Nat) (hp : p ≠ 0) (f : List VItem → List VItem)
    (hf : ∀ c, (f c).length = c.length) (l : List VItem) :
    chunks p ((chunks p l).map f).flatten = (chunks p l).map f := by
  induction l using chunks.induct p with
  | case1 l h =>
    rcases h with h | h
    · exact absurd h hp
    · subst h
      rw [chunks_nil]
      simp [chunks_nil]
  | case2 l h ih =>
    have hl : l ≠ [] := fun he => h (Or.inr he)
    have hlpos : 0 < l.length := List.length_pos.mpr hl
    rw [chunks_cons p l hp hl]
    by_cases hle : l.length ≤ p
    · have hdrop : l.drop p = [] := List.drop_eq_nil_iff.mpr hle
      have htake : l.take p = l := List.take_of_length_le hle
      rw [hdrop, chunks_nil]
      simp only [List.map_cons, List.map_nil, List.flatten_cons, List.flatten_nil,
        List.append_nil, htake]
      have hfl : f l ≠ [] := by
        intro hc
        have : (f l).length = 0 := by rw [hc]; rfl
        rw [hf l] at this
        omega
      rw [chunks_cons p (f l) hp hfl]
      have hfle : (f l).length ≤ p := by rw [hf l]; exact hle
      rw [List.take_of_length_le hfle, List.drop_eq_nil_iff.mpr hfle, chunks_nil]
    · have hlt : p < l.length := by omega
      simp only [List.map_cons, List.flatten_cons]
      have hflen : (f (l.take p)).length = p := by
        rw [hf, List.length_take]
        omega
      have hne2 : f (l.take p) ++ ((chunks p (l.drop p)).map f).flatten ≠ [] := by
        intro hc
        rcases List.append_eq_nil.mp hc with ⟨h1, _⟩
        have : (f (l.take p)).length = 0 := by rw [h1]; rfl
        omega
      rw [chunks_cons p _ hp hne2, List.take_left' hflen, List.drop_left' hflen, ih]

/-- Iteration count to output of `applyDecay` when the loop terminates: with
`pageSize ≥ 1` the fueled loop produces exactly the page decomposition. -/
theorem applyDecay_eq_run (v : List VItem) (p : Nat) (hp : 1 ≤ p) :
    applyDecay v p = some
      (((chunks p v).map (fun pg => (decayPage pg).1)).flatten,
       ((chunks p v).map (fun pg => (decayPage pg).2)).any (fun b => b)) := by
  unfold applyDecay
  rw [chunksF_eq_chunks v.length p v hp (le_refl _)]
  simp [List.map_map, Function.comp_def]

/-- The spec's decay example: a page of four 8-slot items with filled counts `[4,4,0,0]`. -/
def examplePage : List VItem :=
  [⟨"1", "w1", "a1", "", [.tick, .tick, .tick, .tick, .none, .none, .none, .none]⟩,
   ⟨"2", "w2", "a2", "", [.cross, .tick, .cross, .tick, .none, .none, .none, .none]⟩,
   ⟨"3", "w3", "a3", "", [.none, .none, .none, .none, .none, .none, .none, .none]⟩,
   ⟨"4", "w4", "a4", "", [.none, .none, .none, .none, .none, .none, .none, .none]⟩]

/-- Expected output of the decay example: filled counts `[2,2,2,2]`; the first two
items lose their two highest-index filled states, the last two gain `boost` in
their first two slots. -/
def examplePageRes : List VItem :=
  [⟨"1", "w1", "a1", "", [.tick, .tick, .none, .none, .none, .none, .none, .none]⟩,
   ⟨"2", "w2", "a2", "", [.cross, .tick, .none, .none, .none, .none, .none, .none]⟩,
   ⟨"3", "w3", "a3", "", [.boost, .boost, .none, .none, .none, .none, .none, .none]⟩,
   ⟨"4", "w4", "a4", "", [.boost, .boost, .none, .none, .none, .none, .none, .none]⟩]

/-- **C1** (decay idempotence): for every vocabulary list `v` whose items carry the
data model's invariant of exactly 8 review slots, and every `pageSize ≥ 1`, running
`applyDecay` a second time on the result of a first run changes nothing: the second
run returns its own input unchanged with `modified = false`. -/
theorem applyDecay_idempotent (v : List VItem) (p : Nat) (hp : 1 ≤ p)
    (h8 : ∀ it ∈ v, it.states.length = 8) (v1 : List VItem) (m : Bool)
    (hrun : applyDecay v p = some (v1, m)) :
    applyDecay v1 p = some (v1, false) := by
  have hp0 : p ≠ 0 := by omega
  rw [applyDecay_eq_run v p hp] at hrun
  simp only [Option.some.injEq, Prod.mk.injEq] at hrun
  obtain ⟨hv1, -⟩ := hrun
  have hrechunk : chunks p v1 = (chunks p v).map (fun pg => (decayPage pg).1) := by
    rw [← hv1]
    exact chunks_flatten_map p hp0 _ (fun c => decayPage_length c) v
  have hpages : ∀ pg' ∈ (chunks p v).map (fun pg => (decayPage pg).1),
      decayPage pg' = (pg', false) := by
    intro pg' hpg'
    obtain ⟨pg, hpg, rfl⟩ := List.mem_map.mp hpg'
    apply decayPage_of_const_filled _ (pageAvg pg)
    intro it' hit'
    have h8pg : ∀ it ∈ pg, it.states.length = 8 := by
      intro it hit
      exact h8 it ((chunks_mem_of_mem p v pg hpg).2 it hit)
    exact (decayPage_mem_filled 8 pg h8pg it' hit').1
  rw [applyDecay_eq_run v1 p hp, hrechunk]
  have hmap1 : ((chunks p v).map (fun pg => (decayPage pg).1)).map
      (fun pg => (decayPage pg).1) = (chunks p v).map (fun pg => (decayPage pg).1) := by
    conv_rhs => rw [← List.map_id ((chunks p v).map (fun pg => (decayPage pg).1))]
    apply List.map_congr_left
    intro pg' hpg'
    rw [hpages pg' hpg']
    rfl
  have hmap2 : (((chunks p v).map (fun pg => (decayPage pg).1)).map
      (fun pg => (decayPage pg).2)).any (fun b => b) = false := by
    rw [List.any_eq_false]
    intro b hb
    obtain ⟨pg', hpg', rfl⟩ := List.mem_map.mp hb
    rw [hpages pg' hpg']
    simp
  rw [hmap1, hmap2, hv1]

/-- Witness for C1: the spec's four-item example at pageSize 4; the first run
produces `examplePageRes` with `modified = true`, the second run is the identity
with `modified = false`. -/
theorem applyDecay_idempotent_witness :
    applyDecay examplePageRes 4 = some (examplePageRes, false) :=
  applyDecay_idempotent examplePage 4 (by decide) (by decide) examplePageRes true (by decide)

/-- **C4** (decay page independence): with `pageSize ≥ 1`, `applyDecay` partitions
its input into consecutive pages of length `p` (`chunks`, final page may be
shorter) and the output is the concatenation of each page processed alone
(`decayPage`); re-chunking the output recovers exactly the processed pages, and
two inputs that agree on page `k` produce outputs that agree on page `k`. -/
theorem applyDecay_page_independent (p : Nat) (hp : 1 ≤ p)
    (v w res resw : List VItem) (m mw : Bool)
    (hv : applyDecay v p = some (res, m)) (hw : applyDecay w p = some (resw, mw)) :
    res = ((chunks p v).map (fun pg => (decayPage pg).1)).flatten ∧
    chunks p res = (chunks p v).map (fun pg => (decayPage pg).1) ∧
    ∀ k : Nat, (chunks p v)[k]? = (chunks p w)[k]? →
      (chunks p res)[k]? = (chunks p resw)[k]? := by
  have hp0 : p ≠ 0 := by omega
  rw [applyDecay_eq_run v p hp] at hv
  rw [applyDecay_eq_run w p hp] at hw
  simp only [Option.some.injEq, Prod.mk.injEq] at hv hw
  obtain ⟨hres, -⟩ := hv
  obtain ⟨hresw, -⟩ := hw
  refine ⟨hres.symm, ?_, ?_⟩
  · rw [← hres]
    exact chunks_flatten_map p hp0 _ (fun c => decayPage_length c) v
  · intro k hk
    rw [← hres, ← hresw,
      chunks_flatten_map p hp0 _ (fun c => decayPage_length c) v,
      chunks_flatten_map p hp0 _ (fun c => decayPage_length c) w]
    simp only [List.getElem?_map]
    rw [hk]

/-- Witness for C4 at the spec example (both runs on `examplePage`, pageSize 4). -/
theorem applyDecay_page_independent_witness :
    chunks 4 examplePageRes = (chunks 4 examplePage).map (fun pg => (decayPage pg).1) ∧
    (chunks 4 examplePageRes)[0]? = (chunks 4 examplePageRes)[0]? :=
  ⟨(applyDecay_page_independent 4 (by decide) examplePage examplePage examplePageRes
      examplePageRes true true (by decide) (by decide)).2.1,
   (applyDecay_page_independent 4 (by decide) examplePage examplePage examplePageRes
      examplePageRes true true (by decide) (by decide)).2.2 0 rfl⟩

/-- Loop index of the page loop of `applyDecay` after `k` iterations:
`pageStart` starts at `0` and is incremented by `pageSize` each iteration
(server.js:656), so after `k` iterations it equals `k * pageSize`. -/
def pageStartIter (pageSize : Int) (k : Nat) : Int := (k : Int) * pageSize

/-- With `pageSize = 0` and a non-empty list, the page loop never finishes:
no amount of fuel makes `chunksF` return. -/
theorem chunksF_zero_pageSize (fuel : Nat) (x : VItem) (xs : List VItem) :
    chunksF fuel 0 (x :: xs) = Option.none := by
  induction fuel with
  | zero => rfl
  | succ f ih =>
    simp only [chunksF, List.drop_zero]
    rw [ih]
    rfl

/-- **C10** (termination precondition of `applyDecay`): with `pageSize ≥ 1` the
page loop terminates (within `v.length` iterations, since the loop index grows by
`pageSize ≥ 1` per iteration and reaches `v.length`); the precondition is
necessary: for `pageSize ≤ 0` and a non-empty list the loop index never advances
past the list, and the fueled loop diverges for every fuel when `pageSize = 0`. -/
theorem applyDecay_terminates_iff_pos (v : List VItem) (p : Nat) :
    (1 ≤ p → (applyDecay v p).isSome = true) ∧
    (p = 0 → v ≠ [] → ∀ fuel : Nat, chunksF fuel p v = Option.none) ∧
    (∀ q : Int, q ≤ 0 → 1 ≤ (v.length : Int) → ∀ k : Nat,
      pageStartIter q k < (v.length : Int)) ∧
    (1 ≤ p → (v.length : Int) ≤ pageStartIter (p : Int) v.length) := by
  refine ⟨?_, ?_, ?_, ?_⟩
  · intro hp
    rw [applyDecay_eq_run v p hp]
    rfl
  · intro hp hne fuel
    subst hp
    cases v with
    | nil => exact absurd rfl hne
    | cons x xs => exact chunksF_zero_pageSize fuel x xs
  · intro q hq hlen k
    have hk : (0 : Int) ≤ (k : Int) := Int.natCast_nonneg k
    have h1 : pageStartIter q k ≤ 0 := by
      unfold pageStartIter
      calc (k : Int) * q ≤ (k : Int) * 0 := mul_le_mul_of_nonneg_left hq hk
        _ = 0 := mul_zero _
    omega
  · intro hp
    unfold pageStartIter
    have hp' : (1 : Int) ≤ (p : Int) := by exact_mod_cast hp
    have h0 : (0 : Int) ≤ (v.length : Int) := Int.natCast_nonneg _
    calc (v.length : Int) = (v.length : Int) * 1 := (mul_one _).symm
      _ ≤ (v.length : Int) * (p : Int) := mul_le_mul_of_nonneg_left hp' h0

/-- Witness for C10: the example list terminates at pageSize 4; at pageSize 0 the
fueled loop returns nothing even with generous fuel, and the loop index stays at 0. -/
theorem applyDecay_terminates_iff_pos_witness :
    (applyDecay examplePage 4).isSome = true ∧
    chunksF 100 0 examplePage = Option.none ∧
    pageStartIter 0 100 < ((examplePage.length : Nat) : Int) :=
  ⟨(applyDecay_terminates_iff_pos examplePage 4).1 (by decide),
   (applyDecay_terminates_iff_pos examplePage 0).2.1 rfl (by decide) 100,
   (applyDecay_terminates_iff_pos examplePage 0).2.2.1 0 (by decide) (by decide) 100⟩

theorem clearFwd_getElem (n : Nat) (l : List DState) (i : Nat) :
    (clearFwd n l).1[i]? = (l[i]?).map (fun s =>
      if s ≠ DState.none ∧ filledCount (l.take i) < n then DState.none else s) := by
  induction l generalizing n i with
  | nil => cases n <;> simp [clearFwd]
  | cons s rest ih =>
    cases n with
    | zero => simp [clearFwd]
    | succ m =>
      by_cases hs : s = DState.none
      · subst hs
        have hcond : (DState.none != DState.none) = false := by decide
        simp only [clearFwd, hcond, Bool.false_eq_true, if_false]
        cases i with
        | zero => simp
        | succ j =>
          simp only [List.getElem?_cons_succ, List.take_succ_cons]
          rw [ih (m+1) j]
          cases hrj : rest[j]? with
          | none => rfl
          | some t =>
            simp only [Option.map_some', Option.some.injEq]
            have hfc : filledCount (DState.none :: rest.take j) = filledCount (rest.take j) := by
              rw [filledCount_cons]; simp
            by_cases hc : t ≠ DState.none ∧ filledCount (rest.take j) < m + 1
            · rw [if_pos hc, if_pos ⟨hc.1, by omega⟩]
            · rw [if_neg hc, if_neg (fun hc2 => hc ⟨hc2.1, by omega⟩)]
      · have hcond : (s != DState.none) = true := by simp [hs]
        simp only [clearFwd, hcond, if_true]
        cases i with
        | zero => simp [hs, filledCount_nil]
        | succ j =>
          simp only [List.getElem?_cons_succ, List.take_succ_cons]
          rw [ih m j]
          cases hrj : rest[j]? with
          | none => rfl
          | some t =>
            simp only [Option.map_some', Option.some.injEq]
            have hfc : filledCount (s :: rest.take j) = 1 + filledCount (rest.take j) := by
              rw [filledCount_cons, hcond, if_pos rfl]
            by_cases hc : t ≠ DState.none ∧ filledCount (rest.take j) < m
            · rw [if_pos hc, if_pos ⟨hc.1, by omega⟩]
            · rw [if_neg hc, if_neg (fun hc2 => hc ⟨hc2.1, by omega⟩)]

theorem boostFwd_getElem (n : Nat) (l : List DState) (i : Nat) :
    (boostFwd n l).1[i]? = (l[i]?).map (fun s =>
      if s = DState.none ∧ noneCount (l.take i) < n then DState.boost else s) := by
  induction l generalizing n i with
  | nil => cases n <;> simp [boostFwd]
  | cons s rest ih =>
    cases n with
    | zero => simp [boostFwd]
    | succ m =>
      by_cases hs : s = DState.none
      · subst hs
        have hcond : (DState.none == DState.none) = true := by decide
        simp only [boostFwd, hcond, if_true]
        cases i with
        | zero => simp [noneCount]
        | succ j =>
          simp only [List.getElem?_cons_succ, List.take_succ_cons]
          rw [ih m j]
          cases hrj : rest[j]? with
          | none => rfl
          | some t =>
            simp only [Option.map_some', Option.some.injEq]
            have hnc : noneCount (DState.none :: rest.take j) = 1 + noneCount (rest.take j) := by
              rw [noneCount_cons, hcond, if_pos rfl]
            by_cases hc : t = DState.none ∧ noneCount (rest.take j) < m
            · rw [if_pos hc, if_pos ⟨hc.1, by omega⟩]
            · rw [if_neg hc, if_neg (fun hc2 => hc ⟨hc2.1, by omega⟩)]
      · have hcond : (s == DState.none) = false := by
          simp [hs]
        simp only [boostFwd, hcond, Bool.false_eq_true, if_false]
        cases i with
        | zero => simp [hs]
        | succ j =>
          simp only [List.getElem?_cons_succ, List.take_succ_cons]
          rw [ih (m+1) j]
          cases hrj : rest[j]? with
          | none => rfl
          | some t =>
            simp only [Option.map_some', Option.some.injEq]
            have hnc : noneCount (s :: rest.take j) = noneCount (rest.take j) := by
              rw [noneCount_cons, hcond]; simp
            by_cases hc : t = DState.none ∧ noneCount (rest.take j) < m + 1
            · rw [if_pos hc, if_pos ⟨hc.1, by omega⟩]
            · rw [if_neg hc, if_neg (fun hc2 => hc ⟨hc2.1, by omega⟩)]

theorem reverse_take_eq_drop_reverse (l : List DState) (n : Nat) (h : n ≤ l.length) :
    l.reverse.take n = (l.drop (l.length - n)).reverse := by
  conv_lhs => rw [← List.take_append_drop (l.length - n) l]
  rw [List.reverse_append]
  have hlen : (l.drop (l.length - n)).reverse.length = n := by
    simp only [List.length_reverse, List.length_drop]
    omega
  rw [List.take_left' hlen]

theorem clearBack_getElem (n : Nat) (l : List DState) (i : Nat) (hi : i < l.length) :
    (clearBack n l).1[i]? = (l[i]?).map (fun s =>
      if s ≠ DState.none ∧ filledCount (l.drop (i+1)) < n then DState.none else s) := by
  unfold clearBack
  have hlen : (clearFwd n l.reverse).1.length = l.length := by
    rw [clearFwd_length, List.length_reverse]
  have hi' : i < (clearFwd n l.reverse).1.length := by omega
  rw [List.getElem?_reverse hi', hlen, clearFwd_getElem]
  have hjr : l.length - 1 - i < l.length := by omega
  rw [List.getElem?_reverse hjr]
  have hidx : l.length - 1 - (l.length - 1 - i) = i := by omega
  rw [hidx]
  rw [reverse_take_eq_drop_reverse l (l.length - 1 - i) (by omega)]
  have hidx2 : l.length - (l.length - 1 - i) = i + 1 := by omega
  rw [hidx2, filledCount_reverse]

theorem decayItem_clear_eq (avg : Nat) (it : VItem) (hne : it.states.length ≠ 0)
    (hgt : avg < filledCount it.states) :
    (decayItem avg it).1.states = (clearBack (filledCount it.states - avg) it.states).1 := by
  unfold decayItem
  rw [if_neg hne, if_pos hgt]

theorem decayItem_boost_eq (avg : Nat) (it : VItem) (hne : it.states.length ≠ 0)
    (hlt : filledCount it.states < avg) :
    (decayItem avg it).1.states = (boostFwd (avg - filledCount it.states) it.states).1 := by
  unfold decayItem
  rw [if_neg hne, if_neg (by omega), if_pos hlt]

/-- **C2** (decay algorithm steps): with `pageSize ≥ 1` and 8-slot items, the run
factors into pages; on each page the target is `avgFilled = ⌊Σ filledCount / pageCount⌋`;
an item above the average has exactly `filledCount - avgFilled` states cleared to
`none`, taken from the highest index working backward and skipping already-`none`
slots (slot `i` is cleared iff it is filled and fewer than the removal budget of
filled slots lie strictly above it); an item below the average has exactly
`avgFilled - filledCount` states set to `boost`, from the lowest index working
forward and skipping already-filled slots; items exactly at the average are
untouched. On the four-item 8-slot page with filled counts `[4,4,0,0]` the result
has filled counts `[2,2,2,2]` with `modified = true`. -/
theorem applyDecay_algorithm_steps (v : List VItem) (p : Nat) (res : List VItem) (m : Bool)
    (hp : 1 ≤ p) (h8 : ∀ it ∈ v, it.states.length = 8)
    (hrun : applyDecay v p = some (res, m)) :
    (res = ((chunks p v).map (fun pg => (decayPage pg).1)).flatten) ∧
    (∀ pg ∈ chunks p v,
      (decayPage pg).1 = pg.map (fun it => (decayItem (pageAvg pg) it).1) ∧
      pageAvg pg = (pg.map (fun it => filledCount it.states)).sum / pg.length ∧
      ∀ it ∈ pg,
        (pageAvg pg < filledCount it.states →
          filledCount (decayItem (pageAvg pg) it).1.states = pageAvg pg ∧
          ∀ i : Nat, i < it.states.length →
            (decayItem (pageAvg pg) it).1.states[i]? = (it.states[i]?).map (fun s =>
              if s ≠ DState.none ∧
                  filledCount (it.states.drop (i+1)) < filledCount it.states - pageAvg pg
                then DState.none else s)) ∧
        (filledCount it.states < pageAvg pg →
          filledCount (decayItem (pageAvg pg) it).1.states = pageAvg pg ∧
          ∀ i : Nat,
            (decayItem (pageAvg pg) it).1.states[i]? = (it.states[i]?).map (fun s =>
              if s = DState.none ∧
                  noneCount (it.states.take i) < pageAvg pg - filledCount it.states
                then DState.boost else s)) ∧
        (filledCount it.states = pageAvg pg → decayItem (pageAvg pg) it = (it, false))) ∧
    (applyDecay examplePage 4 = some (examplePageRes, true) ∧
     examplePageRes.map (fun it => filledCount it.states) = [2, 2, 2, 2]) := by
  rw [applyDecay_eq_run v p hp] at hrun
  simp only [Option.some.injEq, Prod.mk.injEq] at hrun
  obtain ⟨hres, -⟩ := hrun
  refine ⟨hres.symm, ?_, by decide, by decide⟩
  intro pg hpg
  have hmem := chunks_mem_of_mem p v pg hpg
  have h8pg : ∀ it ∈ pg, it.states.length = 8 := fun it hit => h8 it (hmem.2 it hit)
  have havg8 : pageAvg pg ≤ 8 :=
    pageAvg_le 8 pg (fun it hit => le_of_eq (h8pg it hit)) hmem.1
  refine ⟨?_, rfl, ?_⟩
  · unfold decayPage
    rw [List.map_map]
    rfl
  · intro it hit
    have hlen : it.states.length = 8 := h8pg it hit
    have hne : it.states.length ≠ 0 := by omega
    refine ⟨?_, ?_, ?_⟩
    · intro hgt
      refine ⟨decayItem_filled _ it (by omega), ?_⟩
      intro i hi
      rw [decayItem_clear_eq (pageAvg pg) it hne hgt]
      exact clearBack_getElem _ it.states i hi
    · intro hlt
      refine ⟨decayItem_filled _ it (by omega), ?_⟩
      intro i
      rw [decayItem_boost_eq (pageAvg pg) it hne hlt]
      exact boostFwd_getElem _ it.states i
    · intro heq
      exact decayItem_of_filled_eq _ it heq

/-- Witness for C2: the spec's concrete example, extracted from the theorem
applied at the example itself. -/
theorem applyDecay_algorithm_steps_witness :
    applyDecay examplePage 4 = some (examplePageRes, true) ∧
    examplePageRes.map (fun it => filledCount it.states) = [2, 2, 2, 2] :=
  (applyDecay_algorithm_steps examplePage 4 examplePageRes true (by decide) (by decide)
    (by decide)).2.2

/-- A vocabulary item as it sits on the JS heap: the `states` array is a mutable
cell identified by a reference. -/
structure HItem where
  id : String
  word : String
  answer : String
  lastUpdated : String
  statesRef : Nat
deriving DecidableEq, Repr

/-- Heap of states arrays: allocation counter and cell contents. -/
structure Heap where
  next : Nat
  cells : Nat → List DState

/-- Dereference an item's states cell. -/
def readItem (h : Heap) (it : HItem) : VItem :=
  ⟨it.id, it.word, it.answer, it.lastUpdated, h.cells it.statesRef⟩

/-- Fresh result items produced by the clone at server.js:652: result item `i`
points at the fresh cell `base + i`. -/
def allocItems (base : Nat) : List VItem → List HItem
  | [] => []
  | it :: rest => ⟨it.id, it.word, it.answer, it.lastUpdated, base⟩ :: allocItems (base + 1) rest

/-- Contents of consecutive freshly allocated cells starting at `base`, over the
previous cell map `f`. -/
def allocCells (base : Nat) (contents : List (List DState)) (f : Nat → List DState) :
    Nat → List DState :=
  match contents with
  | [] => f
  | c :: rest => fun r => if r = base then c else allocCells (base + 1) rest f r

/-- Heap-level `applyDecay` (server.js:650-701): the clone at line 652
(`vocab.map(item => ({...item, states: [...(item.states || [])]}))`) allocates one
fresh states cell per item, and the in-place mutations of the page loop write only
those fresh cells, so each fresh cell ends up holding the decayed states while the
argument's cells are never written. -/
def applyDecayHeap (h : Heap) (vocab : List HItem) (pageSize : Nat) :
    Option (Heap × List HItem × Bool) :=
  (applyDecay (vocab.map (readItem h)) pageSize).map (fun rm =>
    ({ next := h.next + rm.1.length,
       cells := allocCells h.next (rm.1.map (fun it => it.states)) h.cells },
     allocItems h.next rm.1, rm.2))

theorem allocCells_lt (base r : Nat) (contents : List (List DState))
    (f : Nat → List DState) (hr : r < base) : allocCells base contents f r = f r := by
  induction contents generalizing base with
  | nil => rfl
  | cons c rest ih =>
    simp only [allocCells]
    rw [if_neg (by omega)]
    exact ih (base + 1) (by omega)

theorem allocItems_refs (base : Nat) (items : List VItem) :
    ∀ it' ∈ allocItems base items, base ≤ it'.statesRef := by
  induction items generalizing base with
  | nil => intro it' hmem; simp [allocItems] at hmem
  | cons it rest ih =>
    intro it' hmem
    simp only [allocItems, List.mem_cons] at hmem
    rcases hmem with rfl | hmem
    · exact le_refl _
    · exact le_trans (by omega) (ih (base + 1) it' hmem)

theorem allocItems_read (n : Nat) (items : List VItem) (base : Nat)
    (f : Nat → List DState) :
    (allocItems base items).map
      (readItem ⟨n, allocCells base (items.map (fun it => it.states)) f⟩) = items := by
  induction items generalizing base with
  | nil => rfl
  | cons it rest ih =>
    simp only [List.map_cons, allocItems]
    have hhead : readItem ⟨n, allocCells base (it.states :: rest.map (fun i => i.states)) f⟩
        ⟨it.id, it.word, it.answer, it.lastUpdated, base⟩ = it := by
      unfold readItem
      simp [allocCells]
    have htail : (allocItems (base + 1) rest).map
        (readItem ⟨n, allocCells base (it.states :: rest.map (fun i => i.states)) f⟩)
        = (allocItems (base + 1) rest).map
          (readItem ⟨n, allocCells (base + 1) (rest.map (fun i => i.states)) f⟩) := by
      apply List.map_congr_left
      intro x hx
      have hge : base + 1 ≤ x.statesRef := allocItems_refs (base + 1) rest x hx
      unfold readItem
      simp only [allocCells]
      rw [if_neg (by omega)]
    rw [hhead, htail, ih (base + 1)]

/-- **C5** (`applyDecay` is pure w.r.t. its input): on the heap model, running
`applyDecay` leaves every pre-existing cell unchanged (in particular every input
item still reads back exactly as before the call), the returned items all point
at freshly allocated cells disjoint from the input's, and reading the fresh
structure back gives precisely the functional `applyDecay` result. -/
theorem applyDecay_no_mutation (h : Heap) (vocab : List HItem) (p : Nat)
    (hvalid : ∀ it ∈ vocab, it.statesRef < h.next)
    (h2 : Heap) (vocab2 : List HItem) (m : Bool)
    (hrun : applyDecayHeap h vocab p = some (h2, vocab2, m)) :
    (∀ r : Nat, r < h.next → h2.cells r = h.cells r) ∧
    (∀ it ∈ vocab, readItem h2 it = readItem h it) ∧
    (∀ it2 ∈ vocab2, h.next ≤ it2.statesRef) ∧
    applyDecay (vocab.map (readItem h)) p = some (vocab2.map (readItem h2), m) := by
  unfold applyDecayHeap at hrun
  cases happly : applyDecay (vocab.map (readItem h)) p with
  | none => rw [happly] at hrun; simp at hrun
  | some rm =>
    rw [happly, Option.map_some'] at hrun
    have h1 := Option.some.inj hrun
    have hh := congrArg Prod.fst h1
    have h3 := congrArg Prod.snd h1
    have hv := congrArg Prod.fst h3
    have hm := congrArg Prod.snd h3
    simp only at hh hv hm
    subst hh
    subst hv
    subst hm
    refine ⟨?_, ?_, ?_, ?_⟩
    · intro r hr
      exact allocCells_lt h.next r _ h.cells hr
    · intro it hit
      unfold readItem
      dsimp only
      rw [allocCells_lt h.next it.statesRef _ h.cells (hvalid it hit)]
    · intro it2 hit2
      exact allocItems_refs h.next rm.1 it2 hit2
    · rw [allocItems_read]

/-- Concrete one-item heap for the C5 witness: one allocated cell holding two ticks. -/
def exHeap : Heap := ⟨1, fun r => if r = 0 then [DState.tick, DState.tick] else []⟩

/-- The single input item of the C5 witness, pointing at cell 0. -/
def exHeapItems : List HItem := [⟨"1", "w1", "a1", "", 0⟩]

/-- Heap after the C5 witness run: cell 1 is freshly allocated; cell 0 untouched. -/
def exHeapOut : Heap := ⟨2, allocCells 1 [[DState.tick, DState.tick]] exHeap.cells⟩

/-- Witness for C5: the concrete run leaves cell 0 unchanged, the input item reads
back unchanged, and the fresh output structure reads back as the functional result. -/
theorem applyDecay_no_mutation_witness :
    exHeapOut.cells 0 = exHeap.cells 0 ∧
    readItem exHeapOut ⟨"1", "w1", "a1", "", 0⟩ = readItem exHeap ⟨"1", "w1", "a1", "", 0⟩ ∧
    applyDecay (exHeapItems.map (readItem exHeap)) 4
      = some (([⟨"1", "w1", "a1", "", 1⟩] : List HItem).map (readItem exHeapOut), false) := by
  obtain ⟨c1, c2, c3, c4⟩ :=
    applyDecay_no_mutation exHeap exHeapItems 4 (by decide) exHeapOut
      [⟨"1", "w1", "a1", "", 1⟩] false rfl
  exact ⟨c1 0 (by decide), c2 ⟨"1", "w1", "a1", "", 0⟩ (by decide), c4⟩

/-- The service's error type (`AppError(message, statusCode)`, server.js:284-290). -/
structure AppErr where
  message : String
  statusCode : Nat
deriving DecidableEq, Repr

def exceptIsOk {α : Type} (e : Except AppErr α) : Bool :=
  match e with
  | Except.ok _ => true
  | Except.error _ => false

/-- Character class of `CONFIG.filenamePattern = /^[a-zA-Z0-9_-]+\.json$/` (server.js:17). -/
def validFilenameChar (c : Char) : Bool :=
  ('a' ≤ c && c ≤ 'z') || ('A' ≤ c && c ≤ 'Z') || ('0' ≤ c && c ≤ '9') || c == '_' || c == '-'

/-- The literal `.json` suffix of the filename pattern. -/
def jsonSuffix : List Char := ['.', 'j', 's', 'o', 'n']

/-- `CONFIG.filenamePattern.test` on a character list: one or more characters of
the class followed by exactly `.json`. -/
def validFilenameChars (cs : List Char) : Bool :=
  (cs.drop (cs.length - 5) == jsonSuffix) &&
  !(cs.take (cs.length - 5)).isEmpty &&
  (cs.take (cs.length - 5)).all validFilenameChar

/-- `CONFIG.filenamePattern.test name` (server.js:17, 215). -/
def validFilename (s : String) : Bool := validFilenameChars s.data

/-- `sanitizeFilename` (server.js:211-222): falsy or non-matching names throw a
400 `AppError` before any path is constructed from them. -/
def sanitizeFilename (name : String) : Except AppErr String :=
  if name = "" then
    Except.error ⟨"Invalid filename", 400⟩
  else if validFilename name then Except.ok name
  else Except.error
    ⟨"Invalid filename format. Use alphanumeric, hyphens, underscores, and .json extension only.", 400⟩

def isDigitChar (c : Char) : Bool := '0' ≤ c && c ≤ '9'

/-- `CONFIG.snapshotIdPattern = /^[0-9]{4}-[0-9]{2}-[0-9]{2}-[0-9]+$/` (server.js:18). -/
def validSnapshotIdChars : List Char → Bool
  | a :: b :: c :: d :: '-' :: e :: f :: '-' :: g :: h :: '-' :: rest =>
    [a, b, c, d, e, f, g, h].all isDigitChar && !rest.isEmpty && rest.all isDigitChar
  | _ => false

def validSnapshotId (s : String) : Bool := validSnapshotIdChars s.data

/-- `validateSnapshotId` (server.js:227-235). -/
def validateSnapshotId (id : String) : Except AppErr String :=
  if id = "" then Except.error ⟨"Invalid snapshot ID", 400⟩
  else if validSnapshotId id then Except.ok id
  else Except.error ⟨"Invalid snapshot ID format", 400⟩

/-- A course index entry (`{filename, name, pageSize, order}`, spec 3);
`pageSize = 0` models an unset (falsy) JS value. -/
structure Course where
  filename : String
  name : String
  pageSize : Nat
  order : Nat
deriving DecidableEq, Repr

/-- Contents of `server_state.json` (`{lastDecay, lastAutoSnapshotWeek}`). -/
structure SrvState where
  lastDecay : Option String
  lastAutoSnapshotWeek : Option Nat
deriving DecidableEq, Repr

/-- A stored snapshot bundle (server.js:516-523). -/
structure Snapshot where
  id : String
  date : String
  createdAt : String
  note : String
  courses : List Course
  vocabFiles : List (String × List VItem)
deriving DecidableEq, Repr

/-- One user's persisted files: the course index, the vocab files by name, the
snapshot bundles by id, and the optional maintenance state file. The user
directory is taken as already initialized (`ensureUserDataDir`'s fast path is a
no-op on the store). -/
structure Store where
  courses : List Course
  vocab : String → Option (List VItem)
  snapshots : String → Option Snapshot
  srvState : Option SrvState

/-- `UserFileService.loadState` (server.js:395-402): `{}` when the state file is
absent, i.e. both fields unset. -/
def loadState (st : Store) : SrvState := st.srvState.getD ⟨Option.none, Option.none⟩

/-- `UserFileService.loadVocabFile` (server.js:440-451): sanitize the filename,
404 if the file is absent, else the parsed content. -/
def loadVocabFile (st : Store) (filename : String) : Except AppErr (List VItem) :=
  match sanitizeFilename filename with
  | Except.error e => Except.error e
  | Except.ok fn =>
    match st.vocab fn with
    | Option.none => Except.error ⟨"File not found", 404⟩
    | some v => Except.ok v

/-- `UserFileService.saveVocabFile` (server.js:456-461): sanitize, then atomic
whole-file replace. -/
def saveVocabFile (st : Store) (filename : String) (data : List VItem) :
    Except AppErr Store :=
  match sanitizeFilename filename with
  | Except.error e => Except.error e
  | Except.ok fn =>
    Except.ok { st with vocab := fun f => if f = fn then some data else st.vocab f }

/-- `UserFileService.deleteVocabFile` (server.js:466-473): sanitize, then delete
if present (idempotent). -/
def deleteVocabFile (st : Store) (filename : String) : Except AppErr Store :=
  match sanitizeFilename filename with
  | Except.error e => Except.error e
  | Except.ok fn =>
    Except.ok { st with vocab := fun f => if f = fn then Option.none else st.vocab f }

/-- `UserFileService.saveCourses` (server.js:431-435): atomic replace of the index. -/
def saveCourses (st : Store) (courses : List Course) : Store :=
  { st with courses := courses }

/-- Note truncation in `createSnapshot` (server.js:495):
`String(note || '').slice(0, CONFIG.maxNoteLength)` with the limit 500. -/
def truncNote (note : String) : String := String.mk (note.data.take 500)

/-- Snapshot id (server.js:498-500): `{ISO date}-{epoch millis}`. -/
def mkSnapshotId (date : String) (epochMillis : Nat) : String :=
  date ++ "-" ++ toString epochMillis

/-- Lightweight snapshot metadata returned by `createSnapshot` (server.js:528). -/
structure SnapMeta where
  id : String
  date : String
  createdAt : String
  note : String
deriving DecidableEq, Repr

/-- Vocab payload gathered by `createSnapshot` (server.js:506-514): for each
course its full vocab content; a course whose file cannot be loaded (absent, or
invalid filename) is skipped with a warning. -/
def snapVocabFiles (st : Store) (courses : List Course) : List (String × List VItem) :=
  courses.filterMap (fun c =>
    match loadVocabFile st c.filename with
    | Except.ok v => some (c.filename, v)
    | Except.error _ => Option.none)

/-- `UserFileService.createSnapshot` (server.js:489-529): truncate the note, form
the id from the clock, bundle the current course index and all loadable vocab
content, store the bundle, return metadata only. -/
def createSnapshot (st : Store) (note date createdAt : String) (epochMillis : Nat) :
    SnapMeta × Store :=
  let id := mkSnapshotId date epochMillis
  let snap : Snapshot :=
    ⟨id, date, createdAt, truncNote note, st.courses, snapVocabFiles st st.courses⟩
  (⟨id, date, createdAt, truncNote note⟩,
   { st with snapshots := fun i => if i = id then some snap else st.snapshots i })

/-- `UserFileService.restoreSnapshot` (server.js:570-592): validate the id, 404 if
absent, overwrite the course index, then overwrite every vocab file named in the
snapshot through `saveVocabFile`. -/
def restoreSnapshot (st : Store) (snapshotId : String) : Except AppErr (Store × String) :=
  match validateSnapshotId snapshotId with
  | Except.error e => Except.error e
  | Except.ok vid =>
    match st.snapshots vid with
    | Option.none => Except.error ⟨"Snapshot not found", 404⟩
    | some snap =>
      (snap.vocabFiles.foldlM (fun acc kv => saveVocabFile acc kv.1 kv.2)
        (saveCourses st snap.courses)).map (fun st2 => (st2, vid))

theorem validFilename_empty : validFilename "" = false := by decide

theorem sanitizeFilename_ok (s : String) (h : validFilename s = true) :
    sanitizeFilename s = Except.ok s := by
  unfold sanitizeFilename
  have hne : s ≠ "" := by
    intro he
    subst he
    rw [validFilename_empty] at h
    exact absurd h (by decide)
  rw [if_neg hne, if_pos h]

theorem sanitizeFilename_ok_eq (s fn : String) (h : sanitizeFilename s = Except.ok fn) :
    fn = s := by
  unfold sanitizeFilename at h
  split at h
  · exact absurd h (by simp)
  · split at h
    · exact (Except.ok.inj h).symm
    · exact absurd h (by simp)

theorem sanitizeFilename_ok_valid (s fn : String) (h : sanitizeFilename s = Except.ok fn) :
    validFilename s = true := by
  unfold sanitizeFilename at h
  split at h
  · exact absurd h (by simp)
  · split at h
    · assumption
    · exact absurd h (by simp)

theorem loadVocabFile_ok (st : Store) (fn : String) (v : List VItem)
    (hfn : validFilename fn = true) (hv : st.vocab fn = some v) :
    loadVocabFile st fn = Except.ok v := by
  unfold loadVocabFile
  rw [sanitizeFilename_ok fn hfn]
  dsimp only
  rw [hv]

theorem loadVocabFile_ok_inv (st : Store) (s : String) (v : List VItem)
    (h : loadVocabFile st s = Except.ok v) :
    st.vocab s = some v ∧ validFilename s = true := by
  unfold loadVocabFile at h
  cases hsan : sanitizeFilename s with
  | error e => rw [hsan] at h; exact absurd h (by simp)
  | ok fn =>
    have hfs : fn = s := sanitizeFilename_ok_eq s fn hsan
    subst hfs
    rw [hsan] at h
    dsimp only at h
    cases hvv : st.vocab fn with
    | none => rw [hvv] at h; exact absurd h (by simp)
    | some w =>
      rw [hvv] at h
      have : w = v := Except.ok.inj h
      subst this
      exact ⟨rfl, sanitizeFilename_ok_valid fn fn hsan⟩

theorem saveVocabFile_ok (st : Store) (fn : String) (v : List VItem)
    (hfn : validFilename fn = true) :
    saveVocabFile st fn v
      = Except.ok { st with vocab := fun f => if f = fn then some v else st.vocab f } := by
  unfold saveVocabFile
  rw [sanitizeFilename_ok fn hfn]

theorem snapVocabFiles_mem (st : Store) (courses : List Course)
    (kv : String × List VItem) (hkv : kv ∈ snapVocabFiles st courses) :
    ∃ c ∈ courses, kv.1 = c.filename ∧ st.vocab c.filename = some kv.2 ∧
      validFilename c.filename = true := by
  unfold snapVocabFiles at hkv
  rw [List.mem_filterMap] at hkv
  obtain ⟨c, hc, hmatch⟩ := hkv
  cases hload : loadVocabFile st c.filename with
  | error e => rw [hload] at hmatch; exact absurd hmatch (by simp)
  | ok v =>
    rw [hload] at hmatch
    have hkv2 : (c.filename, v) = kv := Option.some.inj hmatch
    obtain ⟨h1, h2⟩ := loadVocabFile_ok_inv st c.filename v hload
    subst hkv2
    exact ⟨c, hc, rfl, h1, h2⟩

theorem snapVocabFiles_mem_of (st : Store) (courses : List Course) (c : Course)
    (v : List VItem) (hc : c ∈ courses)
    (hload : loadVocabFile st c.filename = Except.ok v) :
    (c.filename, v) ∈ snapVocabFiles st courses := by
  unfold snapVocabFiles
  rw [List.mem_filterMap]
  exact ⟨c, hc, by rw [hload]⟩

theorem restoreFold (l : List (String × List VItem)) (base : Store)
    (hvalid : ∀ kv ∈ l, validFilename kv.1 = true) :
    ∃ st2, l.foldlM (fun acc kv => saveVocabFile acc kv.1 kv.2) base = Except.ok st2 ∧
      st2.courses = base.courses ∧ st2.snapshots = base.snapshots ∧
      st2.srvState = base.srvState ∧
      (∀ f : String, (∀ kv ∈ l, kv.1 ≠ f) → st2.vocab f = base.vocab f) ∧
      (∀ kv ∈ l, (∀ kv2 ∈ l, kv2.1 = kv.1 → kv2.2 = kv.2) → st2.vocab kv.1 = some kv.2) := by
  induction l generalizing base with
  | nil =>
    refine ⟨base, rfl, rfl, rfl, rfl, fun f _ => rfl, ?_⟩
    intro kv hkv
    exact absurd hkv (List.not_mem_nil kv)
  | cons kv0 rest ih =>
    have hv0 : validFilename kv0.1 = true := hvalid kv0 (List.mem_cons_self kv0 rest)
    have hvrest : ∀ kv ∈ rest, validFilename kv.1 = true :=
      fun kv hkv => hvalid kv (List.mem_cons_of_mem kv0 hkv)
    set base1 : Store :=
      { base with vocab := fun f => if f = kv0.1 then some kv0.2 else base.vocab f } with hbase1
    obtain ⟨st2, hfold, hc, hs, hsv, huntouched, hwritten⟩ := ih base1 hvrest
    refine ⟨st2, ?_, hc, hs, hsv, ?_, ?_⟩
    · rw [List.foldlM_cons, saveVocabFile_ok base kv0.1 kv0.2 hv0]
      simpa using hfold
    · intro f hf
      have hne : kv0.1 ≠ f := hf kv0 (List.mem_cons_self kv0 rest)
      rw [huntouched f (fun kv hkv => hf kv (List.mem_cons_of_mem kv0 hkv)), hbase1]
      simp only []
      rw [if_neg (fun he => hne he.symm)]
    · intro kv hkv hsame
      rcases List.mem_cons.mp hkv with rfl | hkvrest
      · by_cases hrest : ∀ kv2 ∈ rest, kv2.1 ≠ kv.1
        · rw [huntouched kv.1 hrest, hbase1]
          simp
        · push_neg at hrest
          obtain ⟨kv2, hkv2, hkey⟩ := hrest
          have hval2 : kv2.2 = kv.2 :=
            hsame kv2 (List.mem_cons_of_mem kv hkv2) hkey
          have := hwritten kv2 hkv2 (fun kv3 hkv3 hk3 => by
            have h3 : kv3.2 = kv.2 :=
              hsame kv3 (List.mem_cons_of_mem kv hkv3) (by rw [hk3, hkey])
            rw [h3, hval2])
          rw [hkey, hval2] at this
          exact this
      · exact hwritten kv hkvrest (fun kv2 hkv2 hk2 =>
          hsame kv2 (List.mem_cons_of_mem kv0 hkv2) hk2)

/-- **C3** (snapshot round-trip): restoring the snapshot produced by
`createSnapshot` succeeds and writes back exactly the course index and exactly
the vocab content of every course that existed (with a readable vocab file) at
creation time; it overwrites the current course index and exactly the vocab files
named in the snapshot, touching nothing else. Course filenames carry the service
invariant of being pattern-valid (they are produced through `sanitizeFilename`). -/
theorem snapshot_roundtrip (st : Store) (note date createdAt : String)
    (epochMillis : Nat) (meta : SnapMeta) (st1 : Store)
    (hid : validSnapshotId (mkSnapshotId date epochMillis) = true)
    (hval : ∀ c ∈ st.courses, validFilename c.filename = true)
    (hcreate : createSnapshot st note date createdAt epochMillis = (meta, st1))
    (st2 : Store) (hsnap : st2.snapshots meta.id = st1.snapshots meta.id) :
    exceptIsOk (restoreSnapshot st2 meta.id) = true ∧
    ∀ st3 s, restoreSnapshot st2 meta.id = Except.ok (st3, s) →
      s = meta.id ∧
      st3.courses = st.courses ∧
      (∀ c ∈ st.courses, ∀ v, st.vocab c.filename = some v →
        st3.vocab c.filename = some v) ∧
      (∀ f : String, (∀ kv ∈ snapVocabFiles st st.courses, kv.1 ≠ f) →
        st3.vocab f = st2.vocab f) ∧
      st3.snapshots = st2.snapshots ∧ st3.srvState = st2.srvState := by
  unfold createSnapshot at hcreate
  have hmeta := congrArg Prod.fst hcreate
  have hst1 := congrArg Prod.snd hcreate
  simp only at hmeta hst1
  subst hmeta
  subst hst1
  have hidok : validateSnapshotId (mkSnapshotId date epochMillis)
      = Except.ok (mkSnapshotId date epochMillis) := by
    unfold validateSnapshotId
    have hne : mkSnapshotId date epochMillis ≠ "" := by
      intro he
      rw [he] at hid
      exact absurd hid (by decide)
    rw [if_neg hne, if_pos hid]
  have hlook : st2.snapshots (mkSnapshotId date epochMillis)
      = some ⟨mkSnapshotId date epochMillis, date, createdAt, truncNote note,
          st.courses, snapVocabFiles st st.courses⟩ := by
    rw [hsnap]
    simp
  have hvalid : ∀ kv ∈ snapVocabFiles st st.courses, validFilename kv.1 = true := by
    intro kv hkv
    obtain ⟨c, -, hfn, -, hv⟩ := snapVocabFiles_mem st st.courses kv hkv
    rw [hfn]
    exact hv
  obtain ⟨stR, hfold, hc, hs, hsv, huntouched, hwritten⟩ :=
    restoreFold (snapVocabFiles st st.courses)
      (saveCourses st2 st.courses) hvalid
  have hrestore : restoreSnapshot st2 (mkSnapshotId date epochMillis)
      = Except.ok (stR, mkSnapshotId date epochMillis) := by
    unfold restoreSnapshot
    rw [hidok]
    dsimp only
    rw [hlook]
    dsimp only
    rw [hfold]
    rfl
  refine ⟨by rw [hrestore]; rfl, ?_⟩
  intro st3 s hr3
  rw [hrestore] at hr3
  have hpair := Except.ok.inj hr3
  have hst3 : stR = st3 := congrArg Prod.fst hpair
  have hss : mkSnapshotId date epochMillis = s := congrArg Prod.snd hpair
  subst hst3
  subst hss
  refine ⟨rfl, by rw [hc]; rfl, ?_, huntouched, hs, hsv⟩
  intro c hcmem v hv
  have hload : loadVocabFile st c.filename = Except.ok v :=
    loadVocabFile_ok st c.filename v (hval c hcmem) hv
  have hmem : (c.filename, v) ∈ snapVocabFiles st st.courses :=
    snapVocabFiles_mem_of st st.courses c v hcmem hload
  have := hwritten (c.filename, v) hmem ?_
  · exact this
  · intro kv2 hkv2 hk2
    obtain ⟨c2, -, hfn2, hv2, -⟩ := snapVocabFiles_mem st st.courses kv2 hkv2
    have : st.vocab kv2.1 = some kv2.2 := by rw [hfn2]; exact hv2
    rw [hk2] at this
    simp only at this
    rw [hv] at this
    exact (Option.some.inj this).symm

/-- Concrete course for the C3/C6 witnesses. -/
def exCourse : Course := ⟨"german.json", "German", 4, 0⟩

/-- Concrete user store for the C3 witness: one course whose vocab file is the
decay example page. -/
def exStore : Store :=
  { courses := [exCourse],
    vocab := fun f => if f = "german.json" then some examplePage else Option.none,
    snapshots := fun _ => Option.none,
    srvState := Option.none }

/-- Witness for C3: creating a snapshot of the concrete store and immediately
restoring it succeeds. -/
theorem snapshot_roundtrip_witness :
    exceptIsOk (restoreSnapshot (createSnapshot exStore "n" "2025-01-01" "c" 17).2
      (createSnapshot exStore "n" "2025-01-01" "c" 17).1.id) = true := by
  obtain ⟨h1, -⟩ := snapshot_roundtrip exStore "n" "2025-01-01" "c" 17
    (createSnapshot exStore "n" "2025-01-01" "c" 17).1
    (createSnapshot exStore "n" "2025-01-01" "c" 17).2
    (by decide) (by decide) rfl
    (createSnapshot exStore "n" "2025-01-01" "c" 17).2 rfl
  exact h1

/-- Result JSON of the decay endpoint (server.js:731, 758). -/
structure DecayResult where
  run : Bool
  message : String
deriving DecidableEq, Repr

/-- `course.pageSize || CONFIG.defaultPageSize` (server.js:740): a falsy (0/unset)
page size falls back to the default 15. -/
def effectivePageSize (c : Course) : Nat := if c.pageSize = 0 then 15 else c.pageSize

/-- Per-course try block of the decay endpoint (server.js:737-752): load the
course's vocab (an error is caught and the course skipped), run `applyDecay`,
persist the file only when `modified`; the Bool reports whether this course
counted towards `totalModified`. The `Option.none` branch of `applyDecay` is
unreachable here since `effectivePageSize ≥ 1`. -/
def decayCourseStep (st : Store) (c : Course) : Store × Bool :=
  match loadVocabFile st c.filename with
  | Except.error _ => (st, false)
  | Except.ok v =>
    match applyDecay v (effectivePageSize c) with
    | Option.none => (st, false)
    | some vm =>
      if vm.2 then
        ({ st with vocab := fun f => if f = c.filename then some vm.1 else st.vocab f },
         true)
      else (st, false)

/-- The course loop of the decay endpoint (server.js:737-752). -/
def runCourses (st : Store) : List Course → Store × Nat
  | [] => (st, 0)
  | c :: rest =>
    ((runCourses (decayCourseStep st c).1 rest).1,
     (if (decayCourseStep st c).2 then 1 else 0)
       + (runCourses (decayCourseStep st c).1 rest).2)

/-- `POST /api/maintenance/decay` (server.js:723-759) at a caller-visible "today":
if the stored `lastDecay` equals today, no-op returning `run:false`; otherwise
decay every course, persist modified ones, set `lastDecay := today`, return
`run:true`. -/
def decayEndpoint (today : String) (st : Store) : Store × DecayResult :=
  if (loadState st).lastDecay = some today then
    (st, ⟨false, "Already run today"⟩)
  else
    ({ (runCourses st st.courses).1 with
        srvState := some { loadState st with lastDecay := some today } },
     ⟨true, "Daily decay applied to " ++ toString (runCourses st st.courses).2
        ++ " course(s)"⟩)

/-- Expected final content of one course's vocab file after a decay endpoint run. -/
def decayedValue (st : Store) (c : Course) : Option (List VItem) :=
  match loadVocabFile st c.filename with
  | Except.error _ => st.vocab c.filename
  | Except.ok v =>
    match applyDecay v (effectivePageSize c) with
    | Option.none => st.vocab c.filename
    | some vm => some (if vm.2 then vm.1 else v)

theorem decayCourseStep_frame (st : Store) (c : Course) :
    (decayCourseStep st c).1.courses = st.courses ∧
    (decayCourseStep st c).1.srvState = st.srvState ∧
    (decayCourseStep st c).1.snapshots = st.snapshots := by
  unfold decayCourseStep
  split
  · exact ⟨rfl, rfl, rfl⟩
  · split
    · exact ⟨rfl, rfl, rfl⟩
    · split
      · exact ⟨rfl, rfl, rfl⟩
      · exact ⟨rfl, rfl, rfl⟩

theorem decayCourseStep_vocab_other (st : Store) (c : Course) (f : String)
    (hf : f ≠ c.filename) : (decayCourseStep st c).1.vocab f = st.vocab f := by
  unfold decayCourseStep
  split
  · rfl
  · split
    · rfl
    · split
      · dsimp only
        rw [if_neg hf]
      · rfl

theorem decayCourseStep_vocab_self (st : Store) (c : Course) :
    (decayCourseStep st c).1.vocab c.filename = decayedValue st c := by
  unfold decayCourseStep decayedValue
  cases hload : loadVocabFile st c.filename with
  | error e => simp only [hload]
  | ok v =>
    simp only [hload]
    cases happ : applyDecay v (effectivePageSize c) with
    | none => simp only [happ]
    | some vm =>
      simp only [happ]
      by_cases hm : vm.2 = true
      · rw [if_pos hm, if_pos hm]
        dsimp only
        rw [if_pos rfl]
      · rw [if_neg hm, if_neg hm]
        dsimp only
        exact (loadVocabFile_ok_inv st c.filename v hload).1

theorem decayedValue_congr (st1 st2 : Store) (c : Course)
    (h : st1.vocab c.filename = st2.vocab c.filename) :
    decayedValue st1 c = decayedValue st2 c := by
  unfold decayedValue loadVocabFile
  cases hsan : sanitizeFilename c.filename with
  | error e => simp only [hsan]; exact h
  | ok fn =>
    have hfe : fn = c.filename := sanitizeFilename_ok_eq _ _ hsan
    subst hfe
    simp only [hsan, h]

theorem runCourses_frame (cs : List Course) (st : Store) :
    (runCourses st cs).1.courses = st.courses ∧
    (runCourses st cs).1.srvState = st.srvState ∧
    (runCourses st cs).1.snapshots = st.snapshots := by
  induction cs generalizing st with
  | nil => exact ⟨rfl, rfl, rfl⟩
  | cons c rest ih =>
    obtain ⟨h1, h2, h3⟩ := ih (decayCourseStep st c).1
    obtain ⟨g1, g2, g3⟩ := decayCourseStep_frame st c
    exact ⟨h1.trans g1, h2.trans g2, h3.trans g3⟩

theorem runCourses_vocab_other (cs : List Course) (st : Store) (f : String)
    (hf : ∀ c ∈ cs, f ≠ c.filename) : (runCourses st cs).1.vocab f = st.vocab f := by
  induction cs generalizing st with
  | nil => rfl
  | cons c rest ih =>
    have h1 := ih (decayCourseStep st c).1 (fun c2 h2 => hf c2 (List.mem_cons_of_mem c h2))
    have h2 := decayCourseStep_vocab_other st c f (hf c (List.mem_cons_self c rest))
    exact h1.trans h2

theorem runCourses_vocab_mem (cs : List Course) (st : Store)
    (hnd : (cs.map Course.filename).Nodup) :
    ∀ c ∈ cs, (runCourses st cs).1.vocab c.filename = decayedValue st c := by
  induction cs generalizing st with
  | nil => intro c hc; exact absurd hc (List.not_mem_nil c)
  | cons c0 rest ih =>
    intro c hc
    rw [List.map_cons, List.nodup_cons] at hnd
    have hnd0 : ∀ c2 ∈ rest, c2.filename ≠ c0.filename := by
      intro c2 h2 he
      exact hnd.1 (he ▸ List.mem_map_of_mem Course.filename h2)
    rcases List.mem_cons.mp hc with rfl | hcrest
    · have huntouched := runCourses_vocab_other rest (decayCourseStep st c).1 c.filename
        (fun c2 h2 he => hnd0 c2 h2 he.symm)
      exact huntouched.trans (decayCourseStep_vocab_self st c)
    · have hstep := ih (decayCourseStep st c0).1 hnd.2 c hcrest
      have hother : (decayCourseStep st c0).1.vocab c.filename = st.vocab c.filename :=
        decayCourseStep_vocab_other st c0 c.filename (hnd0 c hcrest)
      exact hstep.trans (decayedValue_congr (decayCourseStep st c0).1 st c hother)

theorem decayEndpoint_gated (today : String) (st : Store)
    (h : (loadState st).lastDecay = some today) :
    decayEndpoint today st = (st, ⟨false, "Already run today"⟩) := by
  unfold decayEndpoint
  rw [if_pos h]

/-- **C6** (maintenance decay gating): if the stored state's `lastDecay` equals
today, the endpoint is a no-op returning `run:false` with the store untouched;
otherwise it runs the decay algorithm over every course (each course's file ends
at its decayed value when the index has no duplicate filenames), persists the
changes, sets `lastDecay := today` preserving the rest of the state, and returns
`run:true`. A second call with the same today therefore returns `run:false` and
changes nothing, so the underlying algorithm runs only once. -/
theorem decay_endpoint_gating (today : String) (st : Store) :
    ((loadState st).lastDecay = some today →
      decayEndpoint today st = (st, ⟨false, "Already run today"⟩)) ∧
    ((loadState st).lastDecay ≠ some today →
      (decayEndpoint today st).2.run = true ∧
      (decayEndpoint today st).1.srvState
        = some ⟨some today, (loadState st).lastAutoSnapshotWeek⟩ ∧
      (decayEndpoint today st).1.courses = st.courses ∧
      (decayEndpoint today st).1.snapshots = st.snapshots ∧
      ((st.courses.map Course.filename).Nodup →
        ∀ c ∈ st.courses,
          (decayEndpoint today st).1.vocab c.filename = decayedValue st c)) ∧
    decayEndpoint today (decayEndpoint today st).1
      = ((decayEndpoint today st).1, ⟨false, "Already run today"⟩) := by
  refine ⟨decayEndpoint_gated today st, ?_, ?_⟩
  · intro h
    unfold decayEndpoint
    rw [if_neg h]
    obtain ⟨g1, g2, g3⟩ := runCourses_frame st.courses st
    refine ⟨rfl, rfl, g1, g3, ?_⟩
    intro hnd c hc
    exact runCourses_vocab_mem st.courses st hnd c hc
  · apply decayEndpoint_gated
    by_cases h : (loadState st).lastDecay = some today
    · rw [decayEndpoint_gated today st h]
      exact h
    · unfold decayEndpoint
      rw [if_neg h]
      rfl

/-- Witness for C6: on the concrete store (no state file yet) the first call runs
and persists the decayed example course; the immediate second call is a gated
no-op. -/
theorem decay_endpoint_gating_witness :
    (decayEndpoint "2025-01-02" exStore).2.run = true ∧
    decayEndpoint "2025-01-02" (decayEndpoint "2025-01-02" exStore).1
      = ((decayEndpoint "2025-01-02" exStore).1, ⟨false, "Already run today"⟩) ∧
    (decayEndpoint "2025-01-02" exStore).1.vocab "german.json" = some examplePageRes := by
  have h := decay_endpoint_gating "2025-01-02" exStore
  refine ⟨(h.2.1 (by decide)).1, h.2.2, ?_⟩
  have hv := (h.2.1 (by decide)).2.2.2.2 (by decide) exCourse (by decide)
  exact hv.trans (by decide)

/-- Abstract outcomes of the awaited steps inside `checkAutoSnapshot`
(server.js:613-639); each `await` may throw, modelled as `Except.error`. -/
structure AutoSnapEnv where
  ensureDir : Except AppErr Unit
  loadUserState : Except AppErr SrvState
  createSnap : Except AppErr SnapMeta
  saveUserState : Except AppErr Unit

/-- Result object of `checkAutoSnapshot`: `{created, snapshot?, error?}`. -/
structure AutoSnapResult where
  created : Bool
  snapshotId : Option String
  errMsg : Option String
deriving DecidableEq, Repr

/-- `UserFileService.checkAutoSnapshot` (server.js:613-639): the whole body sits
in a try/catch; an error thrown by directory init, state load, snapshot creation
or state save is caught, logged, and turned into `{created: false, error}`
instead of propagating to the caller. -/
def checkAutoSnapshot (env : AutoSnapEnv) (weekNumber : Nat) : AutoSnapResult :=
  match env.ensureDir with
  | Except.error e => ⟨false, Option.none, some e.message⟩
  | Except.ok _ =>
    match env.loadUserState with
    | Except.error e => ⟨false, Option.none, some e.message⟩
    | Except.ok state =>
      if state.lastAutoSnapshotWeek = some weekNumber then ⟨false, Option.none, Option.none⟩
      else
        match env.createSnap with
        | Except.error e => ⟨false, Option.none, some e.message⟩
        | Except.ok snap =>
          match env.saveUserState with
          | Except.error e => ⟨false, Option.none, some e.message⟩
          | Except.ok _ => ⟨true, some snap.id, Option.none⟩

def exceptIsError {α : Type} (e : Except AppErr α) : Bool := !(exceptIsOk e)

/-- **C9** (auto-snapshot failures never propagate): `checkAutoSnapshot` always
returns a result (it never rethrows — it is a total function of the step
outcomes); whenever any of its awaited steps fails (state load, snapshot
creation, state save, or the directory init), the result has `created = false`;
and a `created = true` result certifies that every step succeeded. -/
theorem checkAutoSnapshot_catches (env : AutoSnapEnv) (weekNumber : Nat) :
    ((exceptIsError env.ensureDir = true ∨ exceptIsError env.loadUserState = true ∨
      exceptIsError env.createSnap = true ∨ exceptIsError env.saveUserState = true) →
      (checkAutoSnapshot env weekNumber).created = false) ∧
    ((checkAutoSnapshot env weekNumber).created = true →
      exceptIsOk env.ensureDir = true ∧ exceptIsOk env.loadUserState = true ∧
      exceptIsOk env.createSnap = true ∧ exceptIsOk env.saveUserState = true) := by
  cases he : env.ensureDir with
  | error e => simp [checkAutoSnapshot, he]
  | ok u =>
    cases hl : env.loadUserState with
    | error e => simp [checkAutoSnapshot, he, hl]
    | ok state =>
      by_cases hg : state.lastAutoSnapshotWeek = some weekNumber
      · simp [checkAutoSnapshot, he, hl, hg]
      · cases hc : env.createSnap with
        | error e => simp [checkAutoSnapshot, he, hl, hg, hc]
        | ok snap =>
          cases hs : env.saveUserState with
          | error e => simp [checkAutoSnapshot, he, hl, hg, hc, hs]
          | ok u2 =>
            simp [checkAutoSnapshot, he, hl, hg, hc, hs, exceptIsError, exceptIsOk]

/-- Concrete environment whose state load fails. -/
def exFailEnv : AutoSnapEnv :=
  ⟨Except.ok (), Except.error ⟨"boom", 500⟩,
   Except.ok ⟨"2025-01-01-1", "2025-01-01", "c", "n"⟩, Except.ok ()⟩

/-- Witness for C9: a failing state load yields `created = false` instead of an
exception. -/
theorem checkAutoSnapshot_catches_witness :
    (checkAutoSnapshot exFailEnv 42).created = false :=
  (checkAutoSnapshot_catches exFailEnv 42).1 (Or.inr (Or.inl (by decide)))

/-- Primitive filesystem steps, to model interruptible writes: `fs.writeFile`
opens the target with truncation and then appends the data (possibly in several
chunks); `fs.rename` atomically replaces the destination. -/
inductive FsAction where
  | mkdirRec (path : String)
  | openTrunc (path : String)
  | writeChunk (path : String) (data : String)
  | renameFile (src dst : String)
deriving DecidableEq, Repr

/-- Effect of one primitive step on the file map. -/
def fsStep (st : String → Option String) : FsAction → String → Option String
  | FsAction.mkdirRec _ => st
  | FsAction.openTrunc p => fun q => if q = p then some "" else st q
  | FsAction.writeChunk p s => fun q => if q = p then some ((st p).getD "" ++ s) else st q
  | FsAction.renameFile src dst => fun q =>
      if q = dst then st src else if q = src then Option.none else st q

/-- Run a trace of primitive steps; running only a prefix (`List.take`) models an
interruption or crash partway through. -/
def fsRun (st : String → Option String) (l : List FsAction) : String → Option String :=
  l.foldl fsStep st

/-- Trace of `fs.writeFile(p, data)` with the data arriving in `chunks`. -/
def writeFileTrace (p : String) (chunks : List String) : List FsAction :=
  FsAction.openTrunc p :: chunks.map (FsAction.writeChunk p)

/-- Trace of `FileSystemAdapter.write` (server.js:77-81): `mkdir -p` on the
parent directory, then a direct `fs.writeFile` of the target — no temporary
file and no rename. -/
def adapterWriteTrace (dir target : String) (chunks : List String) : List FsAction :=
  FsAction.mkdirRec dir :: writeFileTrace target chunks

/-- Trace of `UserFileService.atomicWrite` (server.js:375-390): `fs.writeFile` to
`` `${filepath}.tmp.${Date.now()}` `` followed by `fs.rename` onto the target. -/
def atomicWriteTrace (target tmp : String) (chunks : List String) : List FsAction :=
  writeFileTrace tmp chunks ++ [FsAction.renameFile tmp target]

/-- Whether a primitive step can change the object at `q`. -/
def touches (q : String) : FsAction → Bool
  | FsAction.mkdirRec _ => false
  | FsAction.openTrunc p => q == p
  | FsAction.writeChunk p _ => q == p
  | FsAction.renameFile src dst => q == src || q == dst

theorem fsStep_frame (st : String → Option String) (a : FsAction) (q : String)
    (h : touches q a = false) : fsStep st a q = st q := by
  cases a with
  | mkdirRec p => rfl
  | openTrunc p =>
    simp only [touches, beq_eq_false_iff_ne, ne_eq] at h
    simp [fsStep, h]
  | writeChunk p s =>
    simp only [touches, beq_eq_false_iff_ne, ne_eq] at h
    simp [fsStep, h]
  | renameFile src dst =>
    simp only [touches, Bool.or_eq_false_iff, beq_eq_false_iff_ne, ne_eq] at h
    simp [fsStep, h.1, h.2]

theorem fsRun_frame (l : List FsAction) (st : String → Option String) (q : String)
    (h : ∀ a ∈ l, touches q a = false) : fsRun st l q = st q := by
  induction l generalizing st with
  | nil => rfl
  | cons a rest ih =>
    have h1 := ih (fsStep st a) (fun a2 h2 => h a2 (List.mem_cons_of_mem a h2))
    exact h1.trans (fsStep_frame st a q (h a (List.mem_cons_self a rest)))

theorem fsRun_writeChunks (cs : List String) (st : String → Option String)
    (p : String) (acc : String) (hacc : st p = some acc) :
    fsRun st (cs.map (FsAction.writeChunk p)) p
      = some (cs.foldl (fun a b => a ++ b) acc) := by
  induction cs generalizing st acc with
  | nil => exact hacc
  | cons c rest ih =>
    have hstep : fsStep st (FsAction.writeChunk p c) p = some (acc ++ c) := by
      simp [fsStep, hacc]
    exact ih (fsStep st (FsAction.writeChunk p c)) (acc ++ c) hstep

theorem fsRun_writeFileTrace (cs : List String) (st : String → Option String)
    (p : String) :
    fsRun st (writeFileTrace p cs) p = some (cs.foldl (fun a b => a ++ b) "") := by
  unfold writeFileTrace fsRun
  rw [List.foldl_cons]
  have hopen : fsStep st (FsAction.openTrunc p) p = some "" := by simp [fsStep]
  exact fsRun_writeChunks cs (fsStep st (FsAction.openTrunc p)) p "" hopen

/-- **C7** amended: the service-layer `UserFileService.atomicWrite` is
all-or-nothing — at every interruption point of its trace the target object
holds either its previous content, in full, or the complete new content;
the write lands on the temporary path and only the atomic rename ever touches
the target. (The storage backend's own `FileSystemAdapter.write` is NOT of this
shape; see the counterexample theorem.) -/
theorem atomicWrite_allOrNothing (st : String → Option String) (target tmp : String)
    (chunks : List String) (hneq : tmp ≠ target) (k : Nat) :
    fsRun st ((atomicWriteTrace target tmp chunks).take k) target = st target ∨
    fsRun st ((atomicWriteTrace target tmp chunks).take k) target
      = some (chunks.foldl (fun a b => a ++ b) "") := by
  have hlen : (writeFileTrace tmp chunks).length = chunks.length + 1 := by
    simp [writeFileTrace]
  by_cases hk : k ≤ (writeFileTrace tmp chunks).length
  · left
    unfold atomicWriteTrace
    rw [List.take_append_of_le_length hk]
    apply fsRun_frame
    intro a ha
    have ha2 : a ∈ writeFileTrace tmp chunks := List.take_subset k _ ha
    unfold writeFileTrace at ha2
    rcases List.mem_cons.mp ha2 with rfl | ha3
    · simp [touches]
      intro he
      exact hneq he.symm
    · obtain ⟨c, -, rfl⟩ := List.mem_map.mp ha3
      simp [touches]
      intro he
      exact hneq he.symm
  · right
    have hk2 : (atomicWriteTrace target tmp chunks).length ≤ k := by
      unfold atomicWriteTrace
      rw [List.length_append, hlen]
      simp only [List.length_cons, List.length_nil]
      omega
    rw [List.take_of_length_le hk2]
    unfold atomicWriteTrace fsRun
    rw [List.foldl_append]
    have hw : fsRun st (writeFileTrace tmp chunks) tmp
        = some (chunks.foldl (fun a b => a ++ b) "") := fsRun_writeFileTrace chunks st tmp
    show fsStep (fsRun st (writeFileTrace tmp chunks)) (FsAction.renameFile tmp target) target
      = some (chunks.foldl (fun a b => a ++ b) "")
    simp [fsStep, hw]

/-- Previous file-map for the C7/C8 concrete runs: target `"f"` holds `"OLD"`. -/
def exFs : String → Option String := fun q => if q = "f" then some "OLD" else Option.none

/-- Witness for C7 (amended): a concrete interrupted `atomicWrite` run leaves the
old content readable. -/
theorem atomicWrite_allOrNothing_witness :
    fsRun exFs ((atomicWriteTrace "f" "f.tmp.1" ["NE", "W!"]).take 2) "f" = exFs "f" ∨
    fsRun exFs ((atomicWriteTrace "f" "f.tmp.1" ["NE", "W!"]).take 2) "f"
      = some (["NE", "W!"].foldl (fun a b => a ++ b) "") :=
  atomicWrite_allOrNothing exFs "f" "f.tmp.1" ["NE", "W!"] (by decide) 2

/-- Counterexample to C7 as stated: `FileSystemAdapter.write` (the filesystem
storage backend's `write`) is a direct `mkdir` + `writeFile` with no temporary
file; interrupting it after the truncating open leaves the target empty —
neither the previous content `"OLD"` nor the new content `"NEW!"`. -/
theorem adapterWrite_not_allOrNothing :
    fsRun exFs ((adapterWriteTrace "d" "f" ["NE", "W!"]).take 2) "f" = some "" ∧
    exFs "f" = some "OLD" ∧
    fsRun exFs (adapterWriteTrace "d" "f" ["NE", "W!"]) "f" = some "NEW!" ∧
    some "" ≠ some "OLD" ∧ (some "" : Option String) ≠ some "NEW!" := by
  refine ⟨by decide, by decide, by decide, by decide, by decide⟩

/-- Storage-level calls issued by a service operation, for tracing ordering. -/
inductive StorageCall where
  | dirCheck (path : String)
  | fileCheck (path : String)
  | readCall (path : String)
  | writeCall (path : String)
  | unlinkCall (path : String)
deriving DecidableEq, Repr

/-- The per-user directory path segment (one fixed user). -/
def userDir : String := "users/u"

/-- Storage calls of `ensureUserDataDir`'s fast path (server.js:318-342) for an
already-initialized user: the in-memory `initializingUsers` check issues no
storage call, the directory existence check (`fileExists(userDir)`) does. -/
def ensureDirCalls : List StorageCall := [StorageCall.dirCheck userDir]

/-- `UserFileService.loadVocabFile` with its storage-call trace
(server.js:440-451): the user-dir check of line 441 runs BEFORE the filename
validation of line 442, so even a rejected filename is preceded by a storage
call; the filename itself only ever enters a path after validation. -/
def loadVocabFileTr (vocab : String → Option (List VItem)) (filename : String) :
    Except AppErr (List VItem) × List StorageCall :=
  match sanitizeFilename filename with
  | Except.error e => (Except.error e, ensureDirCalls)
  | Except.ok fn =>
    match vocab fn with
    | Option.none =>
      (Except.error ⟨"File not found", 404⟩,
       ensureDirCalls ++ [StorageCall.fileCheck (userDir ++ "/" ++ fn)])
    | some v =>
      (Except.ok v,
       ensureDirCalls ++ [StorageCall.fileCheck (userDir ++ "/" ++ fn),
         StorageCall.readCall (userDir ++ "/" ++ fn)])

/-- `UserFileService.saveVocabFile` with its trace (server.js:456-461): user-dir
check, then validation, then the atomic write. -/
def saveVocabFileTr (filename : String) : Except AppErr Unit × List StorageCall :=
  match sanitizeFilename filename with
  | Except.error e => (Except.error e, ensureDirCalls)
  | Except.ok fn =>
    (Except.ok (), ensureDirCalls ++ [StorageCall.writeCall (userDir ++ "/" ++ fn)])

/-- `UserFileService.deleteVocabFile` with its trace (server.js:466-473): no
user-dir check — the filename is validated before the first storage call. -/
def deleteVocabFileTr (vocab : String → Option (List VItem)) (filename : String) :
    Except AppErr Unit × List StorageCall :=
  match sanitizeFilename filename with
  | Except.error e => (Except.error e, [])
  | Except.ok fn =>
    match vocab fn with
    | Option.none => (Except.ok (), [StorageCall.fileCheck (userDir ++ "/" ++ fn)])
    | some _ =>
      (Except.ok (), [StorageCall.fileCheck (userDir ++ "/" ++ fn),
        StorageCall.unlinkCall (userDir ++ "/" ++ fn)])

def errCode {α : Type} (e : Except AppErr α) : Option Nat :=
  match e with
  | Except.error er => some er.statusCode
  | Except.ok _ => Option.none

theorem sanitizeFilename_bad (filename : String) (hbad : validFilename filename = false) :
    ∃ e : AppErr, sanitizeFilename filename = Except.error e ∧ e.statusCode = 400 := by
  unfold sanitizeFilename
  by_cases hne : filename = ""
  · rw [if_pos hne]
    exact ⟨_, rfl, rfl⟩
  · rw [if_neg hne, if_neg (by rw [hbad]; exact Bool.false_ne_true)]
    exact ⟨_, rfl, rfl⟩

/-- **C8** amended: for every filename not matching `^[a-zA-Z0-9_-]+\.json$`,
each vocab operation rejects it with an `InvalidInput` (HTTP 400) error and the
invalid name is never passed to the storage backend: `deleteVocabFile` issues no
storage call at all, while `loadVocabFile` and `saveVocabFile` first issue the
user-directory existence check of `ensureUserDataDir` (a call not involving the
filename) and then reject — their whole trace is exactly that directory check. -/
theorem vocab_ops_reject_invalid (vocab : String → Option (List VItem))
    (filename : String) (hbad : validFilename filename = false) :
    errCode (loadVocabFileTr vocab filename).1 = some 400 ∧
    (loadVocabFileTr vocab filename).2 = ensureDirCalls ∧
    errCode (saveVocabFileTr filename).1 = some 400 ∧
    (saveVocabFileTr filename).2 = ensureDirCalls ∧
    errCode (deleteVocabFileTr vocab filename).1 = some 400 ∧
    (deleteVocabFileTr vocab filename).2 = [] := by
  obtain ⟨e, he, hec⟩ := sanitizeFilename_bad filename hbad
  unfold loadVocabFileTr saveVocabFileTr deleteVocabFileTr
  rw [he]
  exact ⟨by simp [errCode, hec], rfl, by simp [errCode, hec], rfl,
    by simp [errCode, hec], rfl⟩

/-- Witness for the amended C8 at the concrete invalid name `"../evil.json"`. -/
theorem vocab_ops_reject_invalid_witness :
    errCode (loadVocabFileTr (fun _ => Option.none) "../evil.json").1 = some 400 ∧
    (loadVocabFileTr (fun _ => Option.none) "../evil.json").2 = ensureDirCalls ∧
    errCode (saveVocabFileTr "../evil.json").1 = some 400 ∧
    (saveVocabFileTr "../evil.json").2 = ensureDirCalls ∧
    errCode (deleteVocabFileTr (fun _ => Option.none) "../evil.json").1 = some 400 ∧
    (deleteVocabFileTr (fun _ => Option.none) "../evil.json").2 = [] :=
  vocab_ops_reject_invalid (fun _ => Option.none) "../evil.json" (by decide)

/-- Counterexample to C8 as stated: `loadVocabFile` rejects the invalid name
`"../evil.json"` with a 400 error, but a storage call (the user-directory
existence check of `ensureUserDataDir`, line 441) has already been issued before
the validation at line 442 — the rejection does not precede every storage call. -/
theorem vocab_ops_storage_call_before_validation :
    errCode (loadVocabFileTr (fun _ => Option.none) "../evil.json").1 = some 400 ∧
    (loadVocabFileTr (fun _ => Option.none) "../evil.json").2 ≠ [] := by
  refine ⟨by decide, by decide⟩
